import Mathlib

/-!
# Verification of the URL timing probe in `public/script.js` (`testURL` and the
  `/api/test` handler)

The probe is an event-driven Node.js function.  We embed it shallowly:

* URL strings are `List Char`; the regex operations of the source
  (`/redirect_count=(\d+)/`, `/[?&]redirect_count=\d+/`, `/^https?:\/\//i`)
  are modelled by executable scans over character lists;
* the legacy `url.parse` of Node is modelled on the fragment the probe
  exercises (scheme detection, host up to `/`, `?` or `#`, lowercasing);
* one invocation of `testURL` is a state machine (`St`, `step`) driven by a
  list of network events (`Ev`): response headers, body chunks with absolute
  timestamps, end of body, request error, socket-timeout expiry.  The
  handlers of the source translate branch by branch; emissions (`Emit`)
  record callback invocations, recursive re-invocations on redirect, and
  `req.destroy` calls;
* redirect chains are run by `runChain`, which re-invokes the machine on the
  URL produced by the redirect branch, with the events of each hop supplied
  by a network model `net : Url → List Ev`.
-/

namespace Probe

abbrev Url := List Char

/-- The literal searched by the source's redirect-marker regexes. -/
def rcPat : List Char := "redirect_count=".toList

/-- Decimal digit characters, as produced by JS number-to-string coercion. -/
def digitChar (d : Nat) : Char :=
  match d with
  | 0 => '0' | 1 => '1' | 2 => '2' | 3 => '3' | 4 => '4'
  | 5 => '5' | 6 => '6' | 7 => '7' | 8 => '8' | _ => '9'

/-- Numeric value of a digit run, as `parseInt` computes it on `\d+`. -/
def digitsVal (ds : List Char) : Nat :=
  ds.foldl (fun a c => a * 10 + (c.toNat - 48)) 0

/-- Fuel-driven decimal printing (structural, so it reduces in the kernel). -/
def natCharsAux : Nat → Nat → List Char
  | 0, _ => []
  | f + 1, n => if n < 10 then [digitChar n]
                else natCharsAux f (n / 10) ++ [digitChar (n % 10)]

/-- Decimal digits of a natural number, as `${n}` renders a JS integer. -/
def natChars (n : Nat) : List Char := natCharsAux (n + 1) n

/-- Model of `testUrl.match(/redirect_count=(\d+)/)?.[1]`: scan for the first position
where `redirect_count=` is followed by at least one digit; return the value
of the maximal digit run there. -/
def findRC : List Char → Option Nat
  | [] => none
  | c :: rest =>
    if rcPat.isPrefixOf (c :: rest)
        && !(((c :: rest).drop rcPat.length).takeWhile Char.isDigit).isEmpty
    then some (digitsVal (((c :: rest).drop rcPat.length).takeWhile Char.isDigit))
    else findRC rest

/-- Model of `parseInt(testUrl.match(/redirect_count=(\d+)/)?.[1] || '0')` (line 145). -/
def redirectCountOf (u : Url) : Nat := (findRC u).getD 0

/-- Model of `testUrl.replace(/[?&]redirect_count=\d+/, '')` (line 172): remove the
first occurrence of `?` or `&` followed by `redirect_count=` and a maximal
nonempty digit run. -/
def stripRC : List Char → List Char
  | [] => []
  | c :: rest =>
    if (c == '?' || c == '&') && rcPat.isPrefixOf rest
        && !((rest.drop rcPat.length).takeWhile Char.isDigit).isEmpty
    then (rest.drop rcPat.length).drop
          ((rest.drop rcPat.length).takeWhile Char.isDigit).length
    else c :: stripRC rest

/-- The fragment of Node's legacy `url.parse` the probe relies on:
`protocol` (lowercased, with trailing colon), `host` (lowercased, up to the
first `/`, `?` or `#`), `path` (the remainder before any `#`, defaulting to
`/`).  A string with neither scheme parses with `host = none` and the whole
input as path, without throwing. -/
structure ParsedUrl where
  protocol : Option (List Char)
  host : Option (List Char)
  path : List Char
deriving DecidableEq

def mkParsed (proto : List Char) (rest : List Char) : ParsedUrl :=
  let host := rest.takeWhile (fun c => !(c == '/' || c == '?' || c == '#'))
  let after := (rest.drop host.length).takeWhile (fun c => !(c == '#'))
  { protocol := some proto
    host := some (host.map Char.toLower)
    path := if after.isEmpty then "/".toList else after }

def urlParse (s : Url) : ParsedUrl :=
  let ls := s.map Char.toLower
  if "https://".toList.isPrefixOf ls then mkParsed ("https:".toList) (s.drop 8)
  else if "http://".toList.isPrefixOf ls then mkParsed ("http:".toList) (s.drop 7)
  else { protocol := none, host := none, path := s }

/-- Model of `const lib = parsed.protocol === 'https:' ? https : http` (line 116). -/
inductive Lib where
  | http
  | https
deriving DecidableEq

def libFor (p : ParsedUrl) : Lib :=
  if p.protocol = some ("https:".toList) then Lib.https else Lib.http

/-- Node's `http.request` host defaulting: a missing or empty `host` option
connects to `localhost`. -/
def connectHost (p : ParsedUrl) : List Char :=
  match p.host with
  | none => "localhost".toList
  | some h => if h.isEmpty then "localhost".toList else h

/-- The synchronous part of `testURL` (lines 114--139): parse the URL, pick
the transport library and open a connection — no validation is performed. -/
structure InitAction where
  lib : Lib
  host : List Char
deriving DecidableEq

def testURLInit (u : Url) : InitAction :=
  { lib := libFor (urlParse u), host := connectHost (urlParse u) }

/-- Model of the scheme test `/^https?:\/\//i` on the server side (line 246). -/
def hasScheme (s : Url) : Bool :=
  "http://".toList.isPrefixOf (s.map Char.toLower)
    || "https://".toList.isPrefixOf (s.map Char.toLower)

/-- Model of `fullUrl = /^https?:\/\//i.test(u) ? u : 'https://' + u` (lines 245--248). -/
def fullUrlOf (target : Url) : Url :=
  if hasScheme target then target else "https://".toList ++ target

/-- Model of `location.startsWith('http') ? location : prot + '//' + host + location`
(line 147); a null protocol or host renders as the string `null` in the JS
template literal. -/
def resolveLocation (p : ParsedUrl) (loc : List Char) : List Char :=
  if "http".toList.isPrefixOf loc then loc
  else p.protocol.getD ("null".toList) ++ "//".toList
        ++ p.host.getD ("null".toList) ++ loc

/-- Model of `redirectUrl + (redirectUrl.includes('?') ? '&' : '?') +
`redirect_count=${k+1}`` (line 149). -/
def newRedirectUrl (p : ParsedUrl) (loc : List Char) (k : Nat) : Url :=
  let r := resolveLocation p loc
  r ++ (if r.contains '?' then ['&'] else ['?']) ++ rcPat ++ natChars (k + 1)

/-- Network events delivered to one invocation of `testURL`.  Body events
carry absolute timestamps (`Date.now()` values). -/
inductive Ev where
  | response (status : Nat) (location : Option (List Char))
  | data (len : Nat) (t : Int)
  | endE (t : Int)
  | reqError (code : Option (List Char)) (msg : List Char)
  | timeout
deriving DecidableEq

/-- Observable emissions of one invocation: the two callback shapes, a
recursive re-invocation of `testURL` on a redirect, and `req.destroy`. -/
inductive Emit where
  | ok (url : Url) (ttfb : Option Int) (total : Int) (bytes : Nat)
  | err (msg : List Char)
  | reinvoke (url : Url)
  | destroy (msg : List Char)
deriving DecidableEq

/-- Per-invocation mutable state: the `hasCalledBack` latch (line 120),
`firstByteTime` (line 118), `bytesTransferred` (line 119), and whether the
body handlers of lines 161--178 have been registered. -/
structure St where
  hasCalledBack : Bool
  firstByteTime : Option Int
  bytes : Nat
  registered : Bool
deriving DecidableEq

def initSt : St :=
  { hasCalledBack := false, firstByteTime := none, bytes := 0, registered := false }

/-- Model of the `err.code === 'ECONNRESET' / 'ETIMEDOUT'` classification of the error
handler (lines 185--191); any other error is passed through verbatim. -/
def classify (code : Option (List Char)) (msg : List Char) : List Char :=
  if code = some ("ECONNRESET".toList) then "Connection reset by server".toList
  else if code = some ("ETIMEDOUT".toList) then "Connection timed out".toList
  else msg

/-- One event handled as the source handles it (lines 139--200).  `u` is the
invocation's `testUrl`, `p` its parse, `start` its `startTime`. -/
def step (u : Url) (p : ParsedUrl) (start : Int) (s : St) : Ev → St × List Emit
  | Ev.response status loc =>
    if 300 ≤ status ∧ status < 400 then
      match loc with
      | some l =>
        if l.isEmpty then ({ s with registered := true }, [])
        else if s.hasCalledBack then ({ s with registered := true }, [])
        else
          let k := redirectCountOf u
          if k < 3 then
            ({ s with hasCalledBack := true }, [Emit.reinvoke (newRedirectUrl p l k)])
          else
            ({ s with hasCalledBack := true }, [Emit.err ("Too many redirects".toList)])
      | none => ({ s with registered := true }, [])
    else ({ s with registered := true }, [])
  | Ev.data len t =>
    if s.registered then
      ({ s with
          firstByteTime :=
            match s.firstByteTime with
            | none => some (t - start)
            | some x => some x
          bytes := s.bytes + len }, [])
    else (s, [])
  | Ev.endE t =>
    if s.registered && !s.hasCalledBack then
      ({ s with hasCalledBack := true },
        [Emit.ok (stripRC u) s.firstByteTime (t - start) s.bytes])
    else (s, [])
  | Ev.reqError code msg =>
    if s.hasCalledBack then (s, [])
    else ({ s with hasCalledBack := true }, [Emit.err (classify code msg)])
  | Ev.timeout =>
    if s.hasCalledBack then (s, [])
    else ({ s with hasCalledBack := true }, [Emit.destroy ("Request timed out".toList)])

/-- Process a list of events, threading state and collecting emissions. -/
def procEvents (u : Url) (p : ParsedUrl) (start : Int) : St → List Ev → St × List Emit
  | s, [] => (s, [])
  | s, e :: es =>
    let se := step u p start s e
    let rest := procEvents u p start se.1 es
    (rest.1, se.2 ++ rest.2)

/-- One full invocation of `testURL` on `u`, starting at `start`, fed the
events `es`. -/
def runInv (u : Url) (start : Int) (es : List Ev) : St × List Emit :=
  procEvents u (urlParse u) start initSt es

/-- Expand the emissions of one invocation: a `reinvoke` is kept (it records
the hop) and followed by the emissions of the recursive invocation. -/
def expandWith (prev : Url → List Emit) : List Emit → List Emit
  | [] => []
  | Emit.reinvoke v :: rest => Emit.reinvoke v :: (prev v ++ expandWith prev rest)
  | e :: rest => e :: expandWith prev rest

/-- A redirect chain: each invocation's events come from the network model
`net`, its start time from `so`; `fuel` bounds the recursion depth of the
model (the source recurses without its own bound). -/
def runChain (so : Url → Int) (net : Url → List Ev) : Nat → Url → List Emit
  | 0, _ => []
  | fuel + 1, u =>
    expandWith (fun v => runChain so net fuel v) (runInv u (so u) (net u)).2

def isCallback : Emit → Bool
  | Emit.ok _ _ _ _ => true
  | Emit.err _ => true
  | _ => false

def isHop : Emit → Bool
  | Emit.reinvoke _ => true
  | _ => false

def isTerminal (e : Emit) : Bool := isCallback e || isHop e

/-- Number of completion-callback invocations among the emissions. -/
def countCallbacks (ems : List Emit) : Nat := (ems.filter isCallback).length

/-- Number of redirect hops followed (recursive `testURL` calls). -/
def countHops (ems : List Emit) : Nat := (ems.filter isHop).length

def countTerm (ems : List Emit) : Nat := (ems.filter isTerminal).length

/-- Holds when the list contains no occurrence of `redirect_count=`. -/
def cleanB : List Char → Bool
  | [] => true
  | c :: rest => !(rcPat.isPrefixOf (c :: rest)) && cleanB rest

/-- A network model is marker-clean when no redirect URL it makes the probe
construct contains the text `redirect_count=`. -/
def CleanNet (net : Url → List Ev) : Prop :=
  ∀ v status loc, Ev.response status (some loc) ∈ net v →
    cleanB (resolveLocation (urlParse v) loc) = true

def evTime : Ev → Option Int
  | Ev.data _ t => some t
  | Ev.endE t => some t
  | _ => none

/-- Timestamps of the events are chronological starting from `lb`. -/
def chronoB : Int → List Ev → Bool
  | _, [] => true
  | lb, e :: es =>
    match evTime e with
    | some t => decide (lb ≤ t) && chronoB t es
    | none => chronoB lb es

/-- The `hasCalledBack` latch as a potential: 1 while unset, 0 once set. -/
def phi (s : St) : Nat := if s.hasCalledBack then 0 else 1

/-- Network model for the redirect-marker counterexample: every URL answers
with a redirect whose Location embeds its own `redirect_count=0` marker. -/
def netLoop : Url → List Ev :=
  fun _ => [Ev.response 301 (some ("/x?redirect_count=0".toList))]

/-- Network model with one redirect hop followed by a plain 200 body. -/
def netC3 : Url → List Ev := fun v =>
  if v = ("https://a.com/".toList) then
    [Ev.response 301 (some ("https://b.com/p".toList))]
  else if v = ("https://b.com/p?redirect_count=1".toList) then
    [Ev.response 200 none, Ev.data 5 40, Ev.endE 80]
  else []

end Probe

namespace Probe

/-! ## Basic list facts -/

theorem isPre_take : ∀ (p l : List Char), p.isPrefixOf l = true ↔ l.take p.length = p
  | [], l => by simp [List.isPrefixOf]
  | a :: p, [] => by simp [List.isPrefixOf]
  | a :: p, b :: l => by
    simp only [List.isPrefixOf, List.length_cons, List.take_succ_cons,
      Bool.and_eq_true, beq_iff_eq, List.cons.injEq]
    constructor
    · rintro ⟨h1, h2⟩
      exact ⟨h1.symm, (isPre_take p l).mp h2⟩
    · rintro ⟨h1, h2⟩
      exact ⟨h1.symm, (isPre_take p l).mpr h2⟩

theorem isPre_self_app (p q : List Char) : p.isPrefixOf (p ++ q) = true :=
  (isPre_take p (p ++ q)).mpr (List.take_left p q)

theorem isPre_app_left {p x y : List Char} (h : p.isPrefixOf (x ++ y) = true)
    (hl : p.length ≤ x.length) : p.isPrefixOf x = true := by
  rw [isPre_take] at h ⊢
  rw [List.take_append_of_le_length hl] at h
  exact h

theorem isPre_app_split {p x y : List Char} (h : p.isPrefixOf (x ++ y) = true)
    (hl : x.length < p.length) : p = x ++ y.take (p.length - x.length) := by
  rw [isPre_take] at h
  rw [List.take_append_eq_append_take, List.take_of_length_le (Nat.le_of_lt hl)] at h
  exact h.symm

theorem takeWhile_self {l : List Char} {p : Char → Bool}
    (h : ∀ c ∈ l, p c = true) : l.takeWhile p = l :=
  List.takeWhile_eq_self_iff.mpr h

/-! ## Counting emissions -/

theorem countTerm_nil : countTerm [] = 0 := rfl

theorem countTerm_cons (e : Emit) (r : List Emit) :
    countTerm (e :: r) = (if isTerminal e then 1 else 0) + countTerm r := by
  simp only [countTerm, List.filter_cons]
  split <;> simp [Nat.add_comm]

theorem countTerm_app (a b : List Emit) :
    countTerm (a ++ b) = countTerm a + countTerm b := by
  simp [countTerm, List.filter_append]

theorem countCallbacks_nil : countCallbacks [] = 0 := rfl

theorem countCallbacks_cons (e : Emit) (r : List Emit) :
    countCallbacks (e :: r) = (if isCallback e then 1 else 0) + countCallbacks r := by
  simp only [countCallbacks, List.filter_cons]
  split <;> simp [Nat.add_comm]

theorem countCallbacks_app (a b : List Emit) :
    countCallbacks (a ++ b) = countCallbacks a + countCallbacks b := by
  simp [countCallbacks, List.filter_append]

theorem countHops_nil : countHops [] = 0 := rfl

theorem countHops_cons (e : Emit) (r : List Emit) :
    countHops (e :: r) = (if isHop e then 1 else 0) + countHops r := by
  simp only [countHops, List.filter_cons]
  split <;> simp [Nat.add_comm]

theorem countHops_app (a b : List Emit) :
    countHops (a ++ b) = countHops a + countHops b := by
  simp [countHops, List.filter_append]

theorem callbacks_le_term : ∀ ems : List Emit, countCallbacks ems ≤ countTerm ems := by
  intro ems
  induction ems with
  | nil => simp [countCallbacks_nil, countTerm_nil]
  | cons e r ih =>
    rw [countCallbacks_cons, countTerm_cons]
    have : (if isCallback e then 1 else 0) ≤ (if isTerminal e then 1 else 0) := by
      cases e <;> simp [isCallback, isTerminal, isHop]
    omega

theorem hops_le_term : ∀ ems : List Emit, countHops ems ≤ countTerm ems := by
  intro ems
  induction ems with
  | nil => simp [countHops_nil, countTerm_nil]
  | cons e r ih =>
    rw [countHops_cons, countTerm_cons]
    have : (if isHop e then 1 else 0) ≤ (if isTerminal e then 1 else 0) := by
      cases e <;> simp [isCallback, isTerminal, isHop]
    omega

/-! ## The `hasCalledBack` latch: at most one terminal emission -/

theorem phi_of_true {s : St} (h : s.hasCalledBack = true) : phi s = 0 := by
  simp [phi, h]

theorem phi_of_false {s : St} (h : s.hasCalledBack = false) : phi s = 1 := by
  simp [phi, h]

theorem phi_le_one (s : St) : phi s ≤ 1 := by
  unfold phi; split <;> omega

theorem step_budget (u : Url) (p : ParsedUrl) (start : Int) (s : St) (e : Ev) :
    countTerm (step u p start s e).2 + phi (step u p start s e).1 ≤ phi s := by
  cases e with
  | response status loc =>
    simp only [step]
    split
    · cases loc with
      | none => simp [countTerm_nil, phi]
      | some l =>
        by_cases hl : l.isEmpty
        · simp [hl, countTerm_nil, phi]
        · by_cases hcb : s.hasCalledBack
          · simp [hl, hcb, countTerm_nil, phi]
          · simp only [hl, hcb, if_false, if_true, Bool.false_eq_true]
            split <;>
              simp [countTerm_cons, countTerm_nil, isTerminal, isHop, isCallback,
                phi, hcb]
    · simp [countTerm_nil, phi]
  | data len t =>
    simp only [step]
    split <;> simp [countTerm_nil, phi]
  | endE t =>
    simp only [step]
    split
    · next h =>
      have hcb : s.hasCalledBack = false := by
        rcases Bool.and_eq_true _ _ |>.mp h with ⟨_, h2⟩
        simpa using h2
      simp [countTerm_cons, countTerm_nil, isTerminal, isCallback, phi, hcb]
    · simp [countTerm_nil, phi]
  | reqError code msg =>
    simp only [step]
    split
    · simp [countTerm_nil, phi]
    · next hcb =>
      simp [countTerm_cons, countTerm_nil, isTerminal, isCallback, phi,
        Bool.not_eq_true _ |>.mp hcb]
  | timeout =>
    simp only [step]
    split
    · simp [countTerm_nil, phi]
    · next hcb =>
      simp [countTerm_cons, countTerm_nil, isTerminal, isCallback, isHop, phi,
        Bool.not_eq_true _ |>.mp hcb]

theorem proc_budget (u : Url) (p : ParsedUrl) (start : Int) :
    ∀ (es : List Ev) (s : St),
      countTerm (procEvents u p start s es).2 + phi (procEvents u p start s es).1
        ≤ phi s := by
  intro es
  induction es with
  | nil => intro s; simp [procEvents, countTerm_nil]
  | cons e es ih =>
    intro s
    have h1 := step_budget u p start s e
    have h2 := ih (step u p start s e).1
    simp only [procEvents, countTerm_app]
    omega

theorem runInv_term_le_one (u : Url) (start : Int) (es : List Ev) :
    countTerm (runInv u start es).2 ≤ 1 := by
  have := proc_budget u (urlParse u) start es initSt
  have hi : phi initSt = 1 := rfl
  unfold runInv
  omega

theorem step_silent (u : Url) (p : ParsedUrl) (start : Int) (s : St) (e : Ev)
    (h : s.hasCalledBack = true) :
    (step u p start s e).2 = [] ∧ (step u p start s e).1.hasCalledBack = true := by
  cases e with
  | response status loc =>
    simp only [step]
    split
    · cases loc with
      | none => simp [h]
      | some l =>
        by_cases hl : l.isEmpty <;> simp [hl, h]
    · simp [h]
  | data len t => simp only [step]; split <;> simp [h]
  | endE t =>
    simp only [step]
    split
    · next hg => rw [h] at hg; simp at hg
    · simp [h]
  | reqError code msg => simp [step, h]
  | timeout => simp [step, h]

theorem proc_silent (u : Url) (p : ParsedUrl) (start : Int) :
    ∀ (es : List Ev) (s : St), s.hasCalledBack = true →
      (procEvents u p start s es).2 = [] ∧
      (procEvents u p start s es).1.hasCalledBack = true := by
  intro es
  induction es with
  | nil => intro s h; simp [procEvents, h]
  | cons e es ih =>
    intro s h
    have h1 := step_silent u p start s e h
    have h2 := ih (step u p start s e).1 h1.2
    refine ⟨?_, ?_⟩
    · show (step u p start s e).2 ++ (procEvents u p start (step u p start s e).1 es).2 = []
      rw [h1.1, h2.1]
      rfl
    · show (procEvents u p start (step u p start s e).1 es).1.hasCalledBack = true
      exact h2.2

/-! ## Chain level: the callback fires at most once per top-level invocation -/

theorem expand_id_of_term_zero (prev : Url → List Emit) :
    ∀ ems : List Emit, countTerm ems = 0 → expandWith prev ems = ems := by
  intro ems
  induction ems with
  | nil => intro _; rfl
  | cons e r ih =>
    intro h
    rw [countTerm_cons] at h
    cases e with
    | ok a b c d => simp [isTerminal, isCallback] at h
    | err m => simp [isTerminal, isCallback] at h
    | reinvoke v => simp [isTerminal, isHop] at h
    | destroy m =>
      have hr : countTerm r = 0 := by omega
      simp [expandWith, ih hr]

theorem expand_callbacks_le (prev : Url → List Emit)
    (hp : ∀ v, countCallbacks (prev v) ≤ 1) :
    ∀ ems : List Emit, countTerm ems ≤ 1 →
      countCallbacks (expandWith prev ems) ≤ 1 := by
  intro ems
  induction ems with
  | nil => intro _; simp [expandWith, countCallbacks_nil]
  | cons e r ih =>
    intro h
    rw [countTerm_cons] at h
    cases e with
    | ok a b c d =>
      have hr : countTerm r = 0 := by simp [isTerminal, isCallback] at h; omega
      have he : expandWith prev (Emit.ok a b c d :: r) =
          Emit.ok a b c d :: expandWith prev r := rfl
      rw [he, expand_id_of_term_zero prev r hr, countCallbacks_cons]
      have := callbacks_le_term r
      simp [isCallback]
      omega
    | err m =>
      have hr : countTerm r = 0 := by simp [isTerminal, isCallback] at h; omega
      have he : expandWith prev (Emit.err m :: r) = Emit.err m :: expandWith prev r := rfl
      rw [he, expand_id_of_term_zero prev r hr, countCallbacks_cons]
      have := callbacks_le_term r
      simp [isCallback]
      omega
    | reinvoke v =>
      have hr : countTerm r = 0 := by simp [isTerminal, isHop] at h; omega
      have he : expandWith prev (Emit.reinvoke v :: r) =
          Emit.reinvoke v :: (prev v ++ expandWith prev r) := rfl
      rw [he, expand_id_of_term_zero prev r hr]
      rw [countCallbacks_cons, countCallbacks_app]
      have h1 := hp v
      have h2 := callbacks_le_term r
      simp [isCallback]
      omega
    | destroy m =>
      have hr : countTerm r ≤ 1 := by omega
      have he : expandWith prev (Emit.destroy m :: r) =
          Emit.destroy m :: expandWith prev r := rfl
      rw [he, countCallbacks_cons]
      have := ih hr
      simp [isCallback]
      omega

theorem chain_callbacks_le_one (so : Url → Int) (net : Url → List Ev) :
    ∀ (fuel : Nat) (u : Url), countCallbacks (runChain so net fuel u) ≤ 1 := by
  intro fuel
  induction fuel with
  | zero => intro u; simp [runChain, countCallbacks_nil]
  | succ f ih =>
    intro u
    rw [runChain]
    exact expand_callbacks_le _ ih _ (runInv_term_le_one u (so u) (net u))

end Probe

namespace Probe

/-- Claim C1: across a whole top-level invocation (all redirect hops, data
chunks, errors and timer events), the completion callback is invoked at most
once — but not always exactly once: when the 15 s deadline timer fires first,
the handler of lines 195--200 consumes the `hasCalledBack` latch and merely
destroys the request, so the callback fires zero times (the destroy-induced
error event is swallowed by the guard of line 181). -/
theorem claim_C1 :
    (∀ (so : Url → Int) (net : Url → List Ev) (fuel : Nat) (u : Url),
      countCallbacks (runChain so net fuel u) ≤ 1) ∧
    countCallbacks (runChain (fun _ => 0)
      (fun _ => [Ev.timeout, Ev.reqError none ("Request timed out".toList)]) 2
      ("https://example.com/".toList)) = 0 := by
  constructor
  · intro so net fuel u
    exact chain_callbacks_le_one so net fuel u
  · decide

/-- Claim C2: when the deadline timer fires before any other outcome, the
request is destroyed (`Emit.destroy`) but no callback at all reaches the
caller: the timeout handler sets `hasCalledBack` before `req.destroy`, so the
subsequent error event is ignored and the invocation ends in silence. -/
theorem claim_C2 :
    runInv ("https://example.com/".toList) 0
      [Ev.timeout, Ev.reqError none ("Request timed out".toList)] =
    ({ hasCalledBack := true, firstByteTime := none, bytes := 0, registered := false },
     [Emit.destroy ("Request timed out".toList)]) := by
  decide

/-! ## First-byte-time latching -/

theorem proc_append (u : Url) (p : ParsedUrl) (start : Int) :
    ∀ (a b : List Ev) (s : St),
      procEvents u p start s (a ++ b) =
        ((procEvents u p start (procEvents u p start s a).1 b).1,
         (procEvents u p start s a).2
           ++ (procEvents u p start (procEvents u p start s a).1 b).2) := by
  intro a
  induction a with
  | nil => intro b s; simp [procEvents]
  | cons e a ih =>
    intro b s
    show ((procEvents u p start (step u p start s e).1 (a ++ b)).1,
          (step u p start s e).2
            ++ (procEvents u p start (step u p start s e).1 (a ++ b)).2)
        = ((procEvents u p start (procEvents u p start (step u p start s e).1 a).1 b).1,
           ((step u p start s e).2 ++ (procEvents u p start (step u p start s e).1 a).2)
             ++ (procEvents u p start (procEvents u p start (step u p start s e).1 a).1 b).2)
    rw [ih b (step u p start s e).1]
    simp [List.append_assoc]

theorem step_fbt_some (u : Url) (p : ParsedUrl) (start : Int) (s : St) (e : Ev)
    {x : Int} (h : s.firstByteTime = some x) :
    (step u p start s e).1.firstByteTime = some x := by
  cases e with
  | response status loc =>
    simp only [step]
    split
    · cases loc with
      | none => simp [h]
      | some l =>
        by_cases hl : l.isEmpty
        · simp [hl, h]
        · by_cases hcb : s.hasCalledBack <;> simp [hl, hcb, h] <;> split <;> simp [h]
    · simp [h]
  | data len t => simp only [step]; split <;> simp [h]
  | endE t => simp only [step]; split <;> simp [h]
  | reqError code msg => simp only [step]; split <;> simp [h]
  | timeout => simp only [step]; split <;> simp [h]

theorem proc_fbt_some (u : Url) (p : ParsedUrl) (start : Int) :
    ∀ (es : List Ev) (s : St) {x : Int}, s.firstByteTime = some x →
      (procEvents u p start s es).1.firstByteTime = some x := by
  intro es
  induction es with
  | nil => intro s x h; simpa [procEvents] using h
  | cons e es ih =>
    intro s x h
    exact ih (step u p start s e).1 (step_fbt_some u p start s e h)

theorem step_reg (u : Url) (p : ParsedUrl) (start : Int) (s : St) (e : Ev)
    (h : s.registered = true) : (step u p start s e).1.registered = true := by
  cases e with
  | response status loc =>
    simp only [step]
    split
    · cases loc with
      | none => simp
      | some l =>
        by_cases hl : l.isEmpty
        · simp [hl]
        · by_cases hcb : s.hasCalledBack <;> simp [hl, hcb, h] <;> split <;> simp [h]
    · simp
  | data len t => simp only [step]; split <;> simp [h]
  | endE t => simp only [step]; split <;> simp [h]
  | reqError code msg => simp only [step]; split <;> simp [h]
  | timeout => simp only [step]; split <;> simp [h]

theorem step_data_latch (u : Url) (p : ParsedUrl) (start : Int) (s : St)
    (l : Nat) (t : Int) (hr : s.registered = true) (hf : s.firstByteTime = none) :
    (step u p start s (Ev.data l t)).1.firstByteTime = some (t - start) := by
  simp [step, hr, hf]

/-- Claim C6: `firstByteTime` is latched by the first body data event as
`t - start` and is never overwritten by later events; it stays `none` exactly
when no data event is delivered to the registered handlers. -/
theorem claim_C6 :
    (∀ (u : Url) (start : Int) (es₁ : List Ev) (l : Nat) (t : Int) (es₂ : List Ev),
      (runInv u start es₁).1.registered = true →
      (runInv u start es₁).1.firstByteTime = none →
      (runInv u start (es₁ ++ Ev.data l t :: es₂)).1.firstByteTime = some (t - start)) ∧
    (∀ (u : Url) (start : Int) (es₁ es₂ : List Ev) (x : Int),
      (runInv u start es₁).1.firstByteTime = some x →
      (runInv u start (es₁ ++ es₂)).1.firstByteTime = some x) ∧
    (∀ (u : Url) (start : Int) (es₁ : List Ev) (l : Nat) (t : Int) (es₂ : List Ev),
      (runInv u start es₁).1.registered = true →
      (runInv u start (es₁ ++ Ev.data l t :: es₂)).1.firstByteTime ≠ none) := by
  refine ⟨?_, ?_, ?_⟩
  · intro u start es₁ l t es₂ hr hf
    unfold runInv at *
    rw [proc_append]
    simp only [procEvents]
    apply proc_fbt_some
    exact step_data_latch u (urlParse u) start _ l t hr hf
  · intro u start es₁ es₂ x h
    unfold runInv at *
    rw [proc_append]
    exact proc_fbt_some u (urlParse u) start es₂ _ h
  · intro u start es₁ l t es₂ hr
    cases hf : (runInv u start es₁).1.firstByteTime with
    | none =>
      intro hc
      unfold runInv at *
      rw [proc_append] at hc
      simp only [procEvents] at hc
      rw [proc_fbt_some u (urlParse u) start es₂ _
        (step_data_latch u (urlParse u) start _ l t hr hf)] at hc
      exact Option.some_ne_none _ hc
    | some x =>
      intro hc
      unfold runInv at *
      rw [proc_append] at hc
      rw [proc_fbt_some u (urlParse u) start (Ev.data l t :: es₂) _ hf] at hc
      exact Option.some_ne_none _ hc

/-- Witness for C6 at a concrete run: a 200 response registers the handlers,
the chunk at t = 40 latches `firstByteTime := 40`, and a second chunk at
t = 60 does not overwrite it. -/
theorem wit_C6 :
    (runInv ("https://e.com/".toList) 0
      ([Ev.response 200 none] ++ Ev.data 5 40 :: [Ev.data 7 60])).1.firstByteTime
      = some 40 :=
  claim_C6.1 ("https://e.com/".toList) 0 [Ev.response 200 none] 5 40
    [Ev.data 7 60] (by decide) (by decide)

end Probe

namespace Probe

/-- Claim C8: a target with neither `http://` nor `https://` (case-insensitive)
is prefixed with `https://` by the server handler, parses with protocol
`https:`, and is probed over the https library. -/
theorem claim_C8 :
    ∀ s : Url, hasScheme s = false →
      fullUrlOf s = "https://".toList ++ s ∧
      (urlParse (fullUrlOf s)).protocol = some ("https:".toList) ∧
      libFor (urlParse (fullUrlOf s)) = Lib.https := by
  intro s h
  have hf : fullUrlOf s = "https://".toList ++ s := by simp [fullUrlOf, h]
  have hmap : "https://".toList.map Char.toLower = "https://".toList := by decide
  have hp : "https://".toList.isPrefixOf
      (("https://".toList ++ s).map Char.toLower) = true := by
    rw [List.map_append, hmap]
    exact isPre_self_app _ _
  refine ⟨hf, ?_, ?_⟩
  · rw [hf]
    simp only [urlParse, hp, if_true]
    simp [mkParsed]
  · rw [hf]
    simp only [urlParse, hp, if_true]
    simp [mkParsed, libFor]

/-- Witness for C8: `example.com` is probed as `https://example.com`. -/
theorem wit_C8 :
    fullUrlOf ("example.com".toList) = "https://".toList ++ "example.com".toList ∧
    libFor (urlParse (fullUrlOf ("example.com".toList))) = Lib.https :=
  ⟨(claim_C8 ("example.com".toList) (by decide)).1,
   (claim_C8 ("example.com".toList) (by decide)).2.2⟩

/-- Claim C9: the error handler classifies `ECONNRESET` as the
connection-reset message, `ETIMEDOUT` as the timed-out message, and passes
any other error through with its message verbatim, whenever no outcome has
been delivered yet. -/
theorem claim_C9 :
    ∀ (u : Url) (p : ParsedUrl) (start : Int) (s : St)
      (code : Option (List Char)) (msg : List Char), s.hasCalledBack = false →
      (step u p start s (Ev.reqError code msg)).2 = [Emit.err (classify code msg)] ∧
      classify (some ("ECONNRESET".toList)) msg = "Connection reset by server".toList ∧
      classify (some ("ETIMEDOUT".toList)) msg = "Connection timed out".toList ∧
      (code ≠ some ("ECONNRESET".toList) → code ≠ some ("ETIMEDOUT".toList) →
        classify code msg = msg) := by
  intro u p start s code msg h
  refine ⟨by simp [step, h], by simp [classify], ?_, ?_⟩
  · unfold classify
    rw [if_neg (by decide), if_pos rfl]
  · intro h1 h2
    unfold classify
    rw [if_neg h1, if_neg h2]

/-- Witness for C9: a reset error on a fresh invocation produces exactly the
connection-reset callback. -/
theorem wit_C9 :
    (step ("https://e.com/".toList) (urlParse ("https://e.com/".toList)) 0 initSt
      (Ev.reqError (some ("ECONNRESET".toList)) ("boom".toList))).2
      = [Emit.err ("Connection reset by server".toList)] := by
  have h := claim_C9 ("https://e.com/".toList) (urlParse ("https://e.com/".toList))
    0 initSt (some ("ECONNRESET".toList)) ("boom".toList) rfl
  rw [h.1, h.2.1]

/-- Claim C5 (amended): a target whose parse yields no host — the empty
string included — is not rejected as malformed; the probe proceeds to open a
connection to the defaulted host `localhost`, and nothing is emitted before
transport events arrive.  (The catch of lines 201--203 fires only when
request construction throws, which the lenient legacy parse does not do for
a hostless string.) -/
theorem claim_C5 :
    ∀ s : Url, (urlParse s).host = none →
      testURLInit s = { lib := Lib.http, host := "localhost".toList } ∧
      (runInv s 0 []).2 = [] := by
  intro s h
  constructor
  · by_cases h1 : "https://".toList.isPrefixOf (s.map Char.toLower) = true
    · simp only [urlParse] at h
      rw [if_pos h1] at h
      simp [mkParsed] at h
    · by_cases h2 : "http://".toList.isPrefixOf (s.map Char.toLower) = true
      · simp only [urlParse] at h
        rw [if_neg h1, if_pos h2] at h
        simp [mkParsed] at h
      · have hu : urlParse s = { protocol := none, host := none, path := s } := by
          simp only [urlParse]
          rw [if_neg h1, if_neg h2]
        simp [testURLInit, hu, libFor, connectHost]
  · rfl

/-- Counterexample for C5 as stated: the empty target is not rejected
without network activity — the probe initiates a connection (http, host
defaulted to `localhost`) and emits no error beforehand. -/
theorem cex_C5 :
    testURLInit ("".toList) = { lib := Lib.http, host := "localhost".toList } ∧
    ∀ m, Emit.err m ∉ (runInv ("".toList) 0 []).2 := by
  refine ⟨by decide, ?_⟩
  intro m
  rw [show (runInv ("".toList) 0 []).2 = [] from rfl]
  exact List.not_mem_nil _

/-- Witness for C5 (amended) at the empty string. -/
theorem wit_C5 :
    testURLInit ("".toList) = { lib := Lib.http, host := "localhost".toList } ∧
    (runInv ("".toList) 0 []).2 = [] :=
  claim_C5 ("".toList) (by decide)

end Probe

namespace Probe

/-! ## Success emissions: shape and timing bounds -/

theorem step_ok_shape {u : Url} {p : ParsedUrl} {start : Int} {s : St} {e : Ev}
    {url' : Url} {tt : Option Int} {tot : Int} {b : Nat}
    (h : Emit.ok url' tt tot b ∈ (step u p start s e).2) :
    ∃ t, e = Ev.endE t ∧ s.registered = true ∧ s.hasCalledBack = false ∧
      url' = stripRC u ∧ tt = s.firstByteTime ∧ tot = t - start ∧ b = s.bytes := by
  cases e with
  | response status loc =>
    exfalso
    revert h
    simp only [step]
    split
    · cases loc with
      | none => simp
      | some l =>
        by_cases hl : l.isEmpty
        · simp [hl]
        · by_cases hcb : s.hasCalledBack
          · simp [hl, hcb]
          · dsimp only
            rw [if_neg hl, if_neg hcb]
            split <;> simp
    · simp
  | data len t =>
    exfalso
    revert h
    simp only [step]
    split <;> simp
  | endE t =>
    revert h
    simp only [step]
    split
    · next hg =>
      intro h
      rw [List.mem_singleton] at h
      have hr : s.registered = true := by
        rcases Bool.and_eq_true _ _ |>.mp hg with ⟨h1, _⟩
        exact h1
      have hcb : s.hasCalledBack = false := by
        rcases Bool.and_eq_true _ _ |>.mp hg with ⟨_, h2⟩
        simpa using h2
      simp only [Emit.ok.injEq] at h
      exact ⟨t, rfl, hr, hcb, h.1, h.2.1, h.2.2.1, h.2.2.2⟩
    · intro h
      simp at h
  | reqError code msg =>
    exfalso
    revert h
    simp only [step]
    split <;> simp
  | timeout =>
    exfalso
    revert h
    simp only [step]
    split <;> simp

theorem step_fbt_other (u : Url) (p : ParsedUrl) (start : Int) (s : St) (e : Ev)
    (h : ∀ l t, e ≠ Ev.data l t) :
    (step u p start s e).1.firstByteTime = s.firstByteTime := by
  cases e with
  | response status loc =>
    simp only [step]
    split
    · cases loc with
      | none => simp
      | some l =>
        by_cases hl : l.isEmpty
        · simp [hl]
        · by_cases hcb : s.hasCalledBack
          · simp [hl, hcb]
          · dsimp only
            rw [if_neg hl, if_neg hcb]
            split <;> simp
    · simp
  | data len t => exact absurd rfl (h len t)
  | endE t => simp only [step]; split <;> simp
  | reqError code msg => simp only [step]; split <;> simp
  | timeout => simp only [step]; split <;> simp

theorem step_data_fbt (u : Url) (p : ParsedUrl) (start : Int) (s : St)
    (l : Nat) (t : Int) :
    (step u p start s (Ev.data l t)).1.firstByteTime
      = if s.registered then
          (match s.firstByteTime with
           | none => some (t - start)
           | some x => some x)
        else s.firstByteTime := by
  simp only [step]
  split <;> simp_all

theorem c7_aux (u : Url) (p : ParsedUrl) (start : Int) :
    ∀ (es : List Ev) (s : St) (lb : Int),
      chronoB lb es = true →
      (∀ x : Int, s.firstByteTime = some x → x + start ≤ lb) →
      ∀ (url' : Url) (tt : Option Int) (tot : Int) (b : Nat),
        Emit.ok url' tt tot b ∈ (procEvents u p start s es).2 →
        ∀ x : Int, tt = some x → x ≤ tot := by
  intro es
  induction es with
  | nil =>
    intro s lb _ _ url' tt tot b hm
    simp [procEvents] at hm
  | cons e es ih =>
    intro s lb hch hinv url' tt tot b hm
    have hm2 : Emit.ok url' tt tot b ∈ (step u p start s e).2
        ++ (procEvents u p start (step u p start s e).1 es).2 := hm
    rcases List.mem_append.mp hm2 with h1 | h2
    · obtain ⟨t, he, _, _, _, htt, htot, _⟩ := step_ok_shape h1
      subst he
      have hlb : lb ≤ t ∧ chronoB t es = true := by
        have : (decide (lb ≤ t) && chronoB t es) = true := hch
        rcases Bool.and_eq_true _ _ |>.mp this with ⟨ha, hb⟩
        exact ⟨of_decide_eq_true ha, hb⟩
      intro x hx
      have := hinv x (htt ▸ hx)
      omega
    · cases e with
      | response status loc =>
        refine ih (step u p start s (Ev.response status loc)).1 lb hch ?_ url' tt tot b h2
        intro x hx
        rw [step_fbt_other u p start s _ (by intro l t h; cases h)] at hx
        exact hinv x hx
      | reqError code msg =>
        refine ih _ lb hch ?_ url' tt tot b h2
        intro x hx
        rw [step_fbt_other u p start s _ (by intro l t h; cases h)] at hx
        exact hinv x hx
      | timeout =>
        refine ih _ lb hch ?_ url' tt tot b h2
        intro x hx
        rw [step_fbt_other u p start s _ (by intro l t h; cases h)] at hx
        exact hinv x hx
      | endE t =>
        have hlb : lb ≤ t ∧ chronoB t es = true := by
          have : (decide (lb ≤ t) && chronoB t es) = true := hch
          rcases Bool.and_eq_true _ _ |>.mp this with ⟨ha, hb⟩
          exact ⟨of_decide_eq_true ha, hb⟩
        refine ih _ t hlb.2 ?_ url' tt tot b h2
        intro x hx
        rw [step_fbt_other u p start s _ (by intro l t h; cases h)] at hx
        have := hinv x hx
        omega
      | data len t =>
        have hlb : lb ≤ t ∧ chronoB t es = true := by
          have : (decide (lb ≤ t) && chronoB t es) = true := hch
          rcases Bool.and_eq_true _ _ |>.mp this with ⟨ha, hb⟩
          exact ⟨of_decide_eq_true ha, hb⟩
        refine ih _ t hlb.2 ?_ url' tt tot b h2
        intro x hx
        rw [step_data_fbt] at hx
        by_cases hr : s.registered
        · rw [if_pos hr] at hx
          cases hf : s.firstByteTime with
          | none =>
            rw [hf] at hx
            simp at hx
            omega
          | some y =>
            rw [hf] at hx
            simp at hx
            have := hinv y hf
            omega
        · rw [if_neg hr] at hx
          have := hinv x hx
          omega

/-- Claim C7: every success emission under a chronological event trace has
`total ≥ ttfb` (when ttfb is non-null) and a nonnegative byte count; the byte
counter adds exactly the length of each registered chunk, is untouched by
non-data events, and is the value reported at end-of-body. -/
theorem claim_C7 :
    (∀ (u : Url) (start : Int) (es : List Ev) (lb : Int)
       (url' : Url) (tt : Option Int) (tot : Int) (b : Nat),
      chronoB lb es = true →
      Emit.ok url' tt tot b ∈ (runInv u start es).2 →
      (∀ x : Int, tt = some x → x ≤ tot) ∧ 0 ≤ b) ∧
    (∀ (u : Url) (p : ParsedUrl) (start : Int) (s : St) (l : Nat) (t : Int),
      (step u p start s (Ev.data l t)).1.bytes
        = s.bytes + (if s.registered then l else 0)) ∧
    (∀ (u : Url) (p : ParsedUrl) (start : Int) (s : St) (e : Ev),
      (∀ l t, e ≠ Ev.data l t) → (step u p start s e).1.bytes = s.bytes) ∧
    (∀ (u : Url) (p : ParsedUrl) (start : Int) (s : St) (t : Int),
      s.registered = true → s.hasCalledBack = false →
      (step u p start s (Ev.endE t)).2
        = [Emit.ok (stripRC u) s.firstByteTime (t - start) s.bytes]) := by
  refine ⟨?_, ?_, ?_, ?_⟩
  · intro u start es lb url' tt tot b hch hm
    refine ⟨c7_aux u (urlParse u) start es initSt lb hch ?_ url' tt tot b hm, Nat.zero_le b⟩
    intro x hx
    simp [initSt] at hx
  · intro u p start s l t
    simp only [step]
    split <;> simp_all
  · intro u p start s e h
    cases e with
    | response status loc =>
      simp only [step]
      split
      · cases loc with
        | none => simp
        | some l =>
          by_cases hl : l.isEmpty
          · simp [hl]
          · by_cases hcb : s.hasCalledBack
            · simp [hl, hcb]
            · dsimp only
              rw [if_neg hl, if_neg hcb]
              split <;> simp
      · simp
    | data len t => exact absurd rfl (h len t)
    | endE t => simp only [step]; split <;> simp
    | reqError code msg => simp only [step]; split <;> simp
    | timeout => simp only [step]; split <;> simp
  · intro u p start s t hr hcb
    simp [step, hr, hcb]

/-- Witness for C7: the 200/1500-byte run of the spec's concrete scenario —
three chunks of 500 bytes at 40, 60 and 80 ms, end at 80 ms — yields
`ttfb = 40 ≤ total = 80` and `bytes = 1500`. -/
theorem wit_C7 :
    Emit.ok ("https://e.com/".toList) (some 40) 80 1500
      ∈ (runInv ("https://e.com/".toList) 0
          [Ev.response 200 none, Ev.data 500 40, Ev.data 500 60, Ev.data 500 80,
           Ev.endE 80]).2 ∧
    (∀ x : Int, (some (40 : Int)) = some x → x ≤ 80) := by
  refine ⟨by decide, ?_⟩
  exact (claim_C7.1 ("https://e.com/".toList) 0
    [Ev.response 200 none, Ev.data 500 40, Ev.data 500 60, Ev.data 500 80, Ev.endE 80]
    0 ("https://e.com/".toList) (some 40) 80 1500 (by decide) (by decide)).1

end Probe

namespace Probe

/-! ## The `redirect_count=` marker: scanning, appending, stripping -/

theorem rcPat_ne_nil : rcPat ≠ [] := by decide

theorem rc_no_border :
    ∀ n, n < rcPat.length → 1 ≤ n → rcPat.drop n ≠ rcPat.take (rcPat.length - n) := by
  decide

theorem sep_not_mem : ∀ sc : Char, sc = '?' ∨ sc = '&' → sc ∉ rcPat := by
  rintro sc (rfl | rfl) <;> decide

theorem findRC_here (cs : List Char) (h1 : rcPat.isPrefixOf cs = true)
    (h2 : (!((cs.drop rcPat.length).takeWhile Char.isDigit).isEmpty) = true) :
    findRC cs = some (digitsVal ((cs.drop rcPat.length).takeWhile Char.isDigit)) := by
  cases cs with
  | nil =>
    rw [show rcPat.isPrefixOf ([] : List Char) = false from by decide] at h1
    cases h1
  | cons c rest =>
    have he : findRC (c :: rest)
        = if rcPat.isPrefixOf (c :: rest)
              && !(((c :: rest).drop rcPat.length).takeWhile Char.isDigit).isEmpty
          then some (digitsVal (((c :: rest).drop rcPat.length).takeWhile Char.isDigit))
          else findRC rest := rfl
    have hg : (rcPat.isPrefixOf (c :: rest)
        && !(((c :: rest).drop rcPat.length).takeWhile Char.isDigit).isEmpty) = true := by
      rw [h1, h2]
      rfl
    rw [he, if_pos hg]

theorem findRC_skip (c : Char) (rest : List Char)
    (h : rcPat.isPrefixOf (c :: rest) = false) : findRC (c :: rest) = findRC rest := by
  simp [findRC, h]

theorem stripRC_skip (c : Char) (rest : List Char)
    (h : rcPat.isPrefixOf rest = false) : stripRC (c :: rest) = c :: stripRC rest := by
  simp [stripRC, h]

theorem stripRC_here (sc : Char) (rest : List Char)
    (hsc : (sc == '?' || sc == '&') = true) (h1 : rcPat.isPrefixOf rest = true)
    (h2 : (!((rest.drop rcPat.length).takeWhile Char.isDigit).isEmpty) = true) :
    stripRC (sc :: rest)
      = (rest.drop rcPat.length).drop
          ((rest.drop rcPat.length).takeWhile Char.isDigit).length := by
  have he : stripRC (sc :: rest)
      = if (sc == '?' || sc == '&') && rcPat.isPrefixOf rest
            && !((rest.drop rcPat.length).takeWhile Char.isDigit).isEmpty
        then (rest.drop rcPat.length).drop
              ((rest.drop rcPat.length).takeWhile Char.isDigit).length
        else sc :: stripRC rest := rfl
  have hg : ((sc == '?' || sc == '&') && rcPat.isPrefixOf rest
      && !((rest.drop rcPat.length).takeWhile Char.isDigit).isEmpty) = true := by
    rw [hsc, h1, h2]
    rfl
  rw [he, if_pos hg]

theorem cleanB_head {a : List Char} (h : cleanB a = true) :
    rcPat.isPrefixOf a = false := by
  cases a with
  | nil => decide
  | cons c r =>
    have := Bool.and_eq_true _ _ |>.mp h
    simpa using this.1

theorem cleanB_tail {c : Char} {r : List Char} (h : cleanB (c :: r) = true) :
    cleanB r = true :=
  (Bool.and_eq_true _ _ |>.mp h).2

/-- Appending `?` or `&` to a marker-free string keeps it marker-free: the
marker's last character is `=`, so no new occurrence can end at the
separator. -/
theorem cleanB_append_sep :
    ∀ r : List Char, cleanB r = true → ∀ sc : Char, sc = '?' ∨ sc = '&' →
      cleanB (r ++ [sc]) = true := by
  intro r
  induction r with
  | nil =>
    intro _ sc hsc
    rcases hsc with rfl | rfl <;> decide
  | cons c r ih =>
    intro h sc hsc
    have hr := ih (cleanB_tail h) sc hsc
    have hpre : rcPat.isPrefixOf ((c :: r) ++ [sc]) = false := by
      by_contra hp
      have hp' : rcPat.isPrefixOf ((c :: r) ++ [sc]) = true := by
        cases hq : rcPat.isPrefixOf ((c :: r) ++ [sc])
        · exact absurd hq hp
        · rfl
      rcases Nat.lt_or_ge (c :: r).length rcPat.length with hlt | hge
      · have hsp := isPre_app_split hp' hlt
        have ht : rcPat.length - (c :: r).length
            = (rcPat.length - (c :: r).length - 1) + 1 := by omega
        rw [ht, List.take_succ_cons] at hsp
        have : sc ∈ rcPat := by
          rw [hsp]
          exact List.mem_append_right _ (List.mem_cons_self _ _)
        exact sep_not_mem sc hsc this
      · have := isPre_app_left hp' hge
        rw [cleanB_head h] at this
        cases this
    show (!(rcPat.isPrefixOf (c :: (r ++ [sc]))) && cleanB (r ++ [sc])) = true
    rw [← List.cons_append, hpre, hr]
    rfl

/-- Scanning a marker-free prefix followed by the literal marker and a digit
run finds exactly that digit run: `redirect_count=` has no nontrivial border,
so no match can straddle the boundary. -/
theorem findRC_append :
    ∀ a : List Char, cleanB a = true → ∀ ds : List Char, ds ≠ [] →
      (∀ c ∈ ds, c.isDigit = true) →
      findRC (a ++ (rcPat ++ ds)) = some (digitsVal ds) := by
  intro a
  induction a with
  | nil =>
    intro _ ds hne hdig
    have hd : (rcPat ++ ds).drop rcPat.length = ds := List.drop_left _ _
    have htw : ds.takeWhile Char.isDigit = ds := takeWhile_self hdig
    have hem : ds.isEmpty = false := by
      cases ds with
      | nil => exact absurd rfl hne
      | cons x xs => rfl
    rw [List.nil_append,
      findRC_here _ (isPre_self_app _ _) (by rw [hd, htw, hem]; rfl)]
    rw [hd, htw]
  | cons c a ih =>
    intro h ds hne hdig
    have hpre : rcPat.isPrefixOf (c :: (a ++ (rcPat ++ ds))) = false := by
      by_contra hp
      have hp' : rcPat.isPrefixOf ((c :: a) ++ (rcPat ++ ds)) = true := by
        rw [List.cons_append]
        cases hq : rcPat.isPrefixOf (c :: (a ++ (rcPat ++ ds)))
        · exact absurd hq hp
        · rfl
      rcases Nat.lt_or_ge (c :: a).length rcPat.length with hlt | hge
      · have hsp := isPre_app_split hp' hlt
        rw [List.take_append_of_le_length (Nat.sub_le _ _)] at hsp
        have hdrop := congrArg (List.drop (c :: a).length) hsp
        rw [List.drop_left] at hdrop
        exact rc_no_border (c :: a).length hlt (by simp) hdrop
      · have := isPre_app_left hp' hge
        rw [cleanB_head h] at this
        cases this
    rw [List.cons_append, findRC_skip _ _ hpre]
    exact ih (cleanB_tail h) ds hne hdig

/-- Stripping a URL of the form `base ++ sc ++ redirect_count= ++ digits`
(with marker-free `base` and `sc` one of `?`/`&`) recovers `base`: the marker
contains neither `?` nor `&`, so the first regex match is the appended one. -/
theorem stripRC_append :
    ∀ base : List Char, cleanB base = true → ∀ (ds : List Char) (sc : Char),
      ds ≠ [] → (∀ c ∈ ds, c.isDigit = true) → (sc = '?' ∨ sc = '&') →
      stripRC (base ++ sc :: (rcPat ++ ds)) = base := by
  intro base
  induction base with
  | nil =>
    intro _ ds sc hne hdig hsc
    have hd : (rcPat ++ ds).drop rcPat.length = ds := List.drop_left _ _
    have htw : ds.takeWhile Char.isDigit = ds := takeWhile_self hdig
    have hem : ds.isEmpty = false := by
      cases ds with
      | nil => exact absurd rfl hne
      | cons x xs => rfl
    rw [List.nil_append,
      stripRC_here sc _ (by rcases hsc with rfl | rfl <;> rfl)
        (isPre_self_app _ _) (by rw [hd, htw, hem]; rfl)]
    rw [hd, htw, List.drop_length]
  | cons b base ih =>
    intro h ds sc hne hdig hsc
    have hpre : rcPat.isPrefixOf (base ++ sc :: (rcPat ++ ds)) = false := by
      by_contra hp
      have hp' : rcPat.isPrefixOf (base ++ sc :: (rcPat ++ ds)) = true := by
        cases hq : rcPat.isPrefixOf (base ++ sc :: (rcPat ++ ds))
        · exact absurd hq hp
        · rfl
      rcases Nat.lt_or_ge base.length rcPat.length with hlt | hge
      · have hsp := isPre_app_split hp' hlt
        have ht : rcPat.length - base.length
            = (rcPat.length - base.length - 1) + 1 := by omega
        rw [ht, List.take_succ_cons] at hsp
        have : sc ∈ rcPat := by
          rw [hsp]
          exact List.mem_append_right _ (List.mem_cons_self _ _)
        exact sep_not_mem sc hsc this
      · have := isPre_app_left hp' hge
        rw [cleanB_head (cleanB_tail h)] at this
        cases this
    rw [List.cons_append, stripRC_skip _ _ hpre]
    rw [ih (cleanB_tail h) ds sc hne hdig hsc]

/-- A marker-free URL is unchanged by the result-construction strip. -/
theorem cleanB_stripRC : ∀ u : Url, cleanB u = true → stripRC u = u := by
  intro u
  induction u with
  | nil => intro _; rfl
  | cons c r ih =>
    intro h
    rw [stripRC_skip _ _ (cleanB_head (cleanB_tail h)), ih (cleanB_tail h)]

end Probe

namespace Probe

/-! ## Redirect emissions: shape, counter threading, hop bound -/

theorem step_reinvoke_shape {u : Url} {p : ParsedUrl} {start : Int} {s : St}
    {e : Ev} {v : Url} (h : Emit.reinvoke v ∈ (step u p start s e).2) :
    ∃ status loc, e = Ev.response status (some loc) ∧ redirectCountOf u < 3 ∧
      v = newRedirectUrl p loc (redirectCountOf u) := by
  cases e with
  | response status loc =>
    revert h
    simp only [step]
    split
    · cases loc with
      | none => simp
      | some l =>
        by_cases hl : l.isEmpty
        · simp [hl]
        · by_cases hcb : s.hasCalledBack
          · simp [hl, hcb]
          · dsimp only
            rw [if_neg hl, if_neg hcb]
            split
            · next hk =>
              intro h
              rw [List.mem_singleton] at h
              simp only [Emit.reinvoke.injEq] at h
              exact ⟨status, l, rfl, hk, h⟩
            · simp
    · simp
  | data len t =>
    exfalso; revert h; simp only [step]; split <;> simp
  | endE t =>
    exfalso; revert h; simp only [step]; split <;> simp
  | reqError code msg =>
    exfalso; revert h; simp only [step]; split <;> simp
  | timeout =>
    exfalso; revert h; simp only [step]; split <;> simp

theorem proc_reinvoke_shape (u : Url) (p : ParsedUrl) (start : Int) :
    ∀ (es : List Ev) (s : St) (v : Url),
      Emit.reinvoke v ∈ (procEvents u p start s es).2 →
      ∃ status loc, Ev.response status (some loc) ∈ es ∧ redirectCountOf u < 3 ∧
        v = newRedirectUrl p loc (redirectCountOf u) := by
  intro es
  induction es with
  | nil => intro s v h; simp [procEvents] at h
  | cons e es ih =>
    intro s v h
    have h2 : Emit.reinvoke v ∈ (step u p start s e).2
        ++ (procEvents u p start (step u p start s e).1 es).2 := h
    rcases List.mem_append.mp h2 with hh | ht
    · obtain ⟨status, loc, he, hk, hv⟩ := step_reinvoke_shape hh
      exact ⟨status, loc, he ▸ List.mem_cons_self _ _, hk, hv⟩
    · obtain ⟨status, loc, he, hk, hv⟩ := ih (step u p start s e).1 v ht
      exact ⟨status, loc, List.mem_cons_of_mem _ he, hk, hv⟩

/-- The counter threaded into the next hop's URL parses back as `k + 1`, as
long as the constructed redirect URL is marker-free. -/
theorem count_newRedirect {p : ParsedUrl} {loc : List Char} {k : Nat} (hk : k < 3)
    (hc : cleanB (resolveLocation p loc) = true) :
    redirectCountOf (newRedirectUrl p loc k) = k + 1 := by
  have hds : natChars (k + 1) ≠ [] ∧ (∀ c ∈ natChars (k + 1), c.isDigit = true)
      ∧ digitsVal (natChars (k + 1)) = k + 1 := by
    interval_cases k <;> exact ⟨by decide, by decide, by decide⟩
  have hb : newRedirectUrl p loc k
      = (resolveLocation p loc
          ++ (if (resolveLocation p loc).contains '?' then ['&'] else ['?']))
        ++ (rcPat ++ natChars (k + 1)) := by
    show ((resolveLocation p loc
          ++ (if (resolveLocation p loc).contains '?' then ['&'] else ['?']))
        ++ rcPat) ++ natChars (k + 1) = _
    rw [List.append_assoc]
  have hcl : cleanB (resolveLocation p loc
      ++ (if (resolveLocation p loc).contains '?' then ['&'] else ['?'])) = true := by
    split
    · exact cleanB_append_sep _ hc '&' (Or.inr rfl)
    · exact cleanB_append_sep _ hc '?' (Or.inl rfl)
  unfold redirectCountOf
  rw [hb, findRC_append _ hcl _ hds.1 hds.2.1, Option.getD_some, hds.2.2]

theorem expand_hops_zero (prev : Url → List Emit) :
    ∀ ems : List Emit, countHops (expandWith prev ems) = 0 →
      expandWith prev ems = ems ∧ ∀ v, Emit.reinvoke v ∉ ems := by
  intro ems
  induction ems with
  | nil => intro _; exact ⟨rfl, by simp⟩
  | cons e r ih =>
    intro h
    cases e with
    | reinvoke v =>
      exfalso
      have he : expandWith prev (Emit.reinvoke v :: r) =
          Emit.reinvoke v :: (prev v ++ expandWith prev r) := rfl
      rw [he, countHops_cons] at h
      simp [isHop] at h
    | ok a b c d =>
      have he : expandWith prev (Emit.ok a b c d :: r) =
          Emit.ok a b c d :: expandWith prev r := rfl
      rw [he, countHops_cons] at h
      simp only [isHop] at h
      obtain ⟨h1, h2⟩ := ih (by omega)
      refine ⟨by rw [he, h1], ?_⟩
      intro v hv
      rcases List.mem_cons.mp hv with hc | hc
      · cases hc
      · exact h2 v hc
    | err m =>
      have he : expandWith prev (Emit.err m :: r) = Emit.err m :: expandWith prev r := rfl
      rw [he, countHops_cons] at h
      simp only [isHop] at h
      obtain ⟨h1, h2⟩ := ih (by omega)
      refine ⟨by rw [he, h1], ?_⟩
      intro v hv
      rcases List.mem_cons.mp hv with hc | hc
      · cases hc
      · exact h2 v hc
    | destroy m =>
      have he : expandWith prev (Emit.destroy m :: r) =
          Emit.destroy m :: expandWith prev r := rfl
      rw [he, countHops_cons] at h
      simp only [isHop] at h
      obtain ⟨h1, h2⟩ := ih (by omega)
      refine ⟨by rw [he, h1], ?_⟩
      intro v hv
      rcases List.mem_cons.mp hv with hc | hc
      · cases hc
      · exact h2 v hc

theorem expand_hops_cases (prev : Url → List Emit) :
    ∀ ems : List Emit, countTerm ems ≤ 1 →
      countHops (expandWith prev ems) = 0 ∨
      ∃ v, Emit.reinvoke v ∈ ems ∧
        countHops (expandWith prev ems) ≤ 1 + countHops (prev v) := by
  intro ems
  induction ems with
  | nil => intro _; left; rfl
  | cons e r ih =>
    intro h
    rw [countTerm_cons] at h
    cases e with
    | ok a b c d =>
      have hr : countTerm r = 0 := by simp [isTerminal, isCallback] at h; omega
      have he : expandWith prev (Emit.ok a b c d :: r) =
          Emit.ok a b c d :: expandWith prev r := rfl
      left
      rw [he, expand_id_of_term_zero prev r hr, countHops_cons]
      have := hops_le_term r
      simp [isHop]
      omega
    | err m =>
      have hr : countTerm r = 0 := by simp [isTerminal, isCallback] at h; omega
      have he : expandWith prev (Emit.err m :: r) = Emit.err m :: expandWith prev r := rfl
      left
      rw [he, expand_id_of_term_zero prev r hr, countHops_cons]
      have := hops_le_term r
      simp [isHop]
      omega
    | reinvoke v =>
      have hr : countTerm r = 0 := by simp [isTerminal, isHop] at h; omega
      have he : expandWith prev (Emit.reinvoke v :: r) =
          Emit.reinvoke v :: (prev v ++ expandWith prev r) := rfl
      right
      refine ⟨v, List.mem_cons_self _ _, ?_⟩
      rw [he, expand_id_of_term_zero prev r hr, countHops_cons, countHops_app]
      have := hops_le_term r
      simp [isHop]
      omega
    | destroy m =>
      have hr : countTerm r ≤ 1 := by omega
      have he : expandWith prev (Emit.destroy m :: r) =
          Emit.destroy m :: expandWith prev r := rfl
      rcases ih hr with h0 | ⟨v, hm, hle⟩
      · left
        rw [he, countHops_cons]
        simp [isHop]
        omega
      · right
        refine ⟨v, List.mem_cons_of_mem _ hm, ?_⟩
        rw [he, countHops_cons]
        simp [isHop]
        omega

/-- As long as every constructed redirect URL is marker-free, the chain
follows at most `3 - redirectCountOf u` further hops from `u`. -/
theorem chain_hops_bound (so : Url → Int) (net : Url → List Ev)
    (hn : CleanNet net) :
    ∀ (fuel : Nat) (u : Url),
      countHops (runChain so net fuel u) ≤ 3 - redirectCountOf u := by
  intro fuel
  induction fuel with
  | zero => intro u; simp [runChain, countHops_nil]
  | succ f ih =>
    intro u
    rw [runChain]
    rcases expand_hops_cases (fun v => runChain so net f v)
        (runInv u (so u) (net u)).2 (runInv_term_le_one u (so u) (net u)) with
      h0 | ⟨v, hm, hle⟩
    · omega
    · obtain ⟨status, loc, hev, hk, hv⟩ :=
        proc_reinvoke_shape u (urlParse u) (so u) (net u) initSt v hm
      have hclean := hn u status loc hev
      have hcount : redirectCountOf v = redirectCountOf u + 1 := by
        rw [hv]
        exact count_newRedirect hk hclean
      have hrec := ih v
      rw [hcount] at hrec
      omega

/-- A redirect response arriving when the URL's marker already reads 3 or
more produces exactly the too-many-redirects error and nothing else: no
re-invocation, and every later event of the invocation is silent. -/
theorem tooMany_run (u : Url) (start : Int) (status : Nat) (loc : List Char)
    (es : List Ev) (h3 : 300 ≤ status) (h4 : status < 400) (hl : loc ≠ [])
    (hk : 3 ≤ redirectCountOf u) :
    (runInv u start (Ev.response status (some loc) :: es)).2
      = [Emit.err ("Too many redirects".toList)] := by
  have hle : ¬(loc.isEmpty = true) := by
    cases loc with
    | nil => exact absurd rfl hl
    | cons a b => simp
  have hstep : step u (urlParse u) start initSt (Ev.response status (some loc))
      = ({ initSt with hasCalledBack := true },
         [Emit.err ("Too many redirects".toList)]) := by
    simp only [step]
    rw [if_pos ⟨h3, h4⟩]
    rw [if_neg hle, if_neg (by simp [initSt]), if_neg (by omega)]
  have hsil := proc_silent u (urlParse u) start es
    ({ initSt with hasCalledBack := true }) rfl
  show (step u (urlParse u) start initSt (Ev.response status (some loc))).2
      ++ (procEvents u (urlParse u) start
          (step u (urlParse u) start initSt (Ev.response status (some loc))).1 es).2
    = [Emit.err ("Too many redirects".toList)]
  rw [hstep]
  rw [hsil.1]
  rfl

end Probe

namespace Probe

theorem proc_ok_url (u : Url) (p : ParsedUrl) (start : Int) :
    ∀ (es : List Ev) (s : St) (url' : Url) (tt : Option Int) (tot : Int) (b : Nat),
      Emit.ok url' tt tot b ∈ (procEvents u p start s es).2 → url' = stripRC u := by
  intro es
  induction es with
  | nil => intro s url' tt tot b h; simp [procEvents] at h
  | cons e es ih =>
    intro s url' tt tot b h
    have h2 : Emit.ok url' tt tot b ∈ (step u p start s e).2
        ++ (procEvents u p start (step u p start s e).1 es).2 := h
    rcases List.mem_append.mp h2 with hh | ht
    · obtain ⟨t, _, _, _, hurl, _⟩ := step_ok_shape hh
      exact hurl
    · exact ih (step u p start s e).1 url' tt tot b ht

/-- Claim C3 (amended): the `url` field of every success callback is the URL
of the invocation that completed — the final hop of the chain — with the
first `redirect_count` marker stripped; it equals the originally requested
URL only when no redirect was followed (a marker-free URL is unchanged by
the strip). -/
theorem claim_C3 :
    (∀ (u : Url) (start : Int) (es : List Ev) (url' : Url) (tt : Option Int)
       (tot : Int) (b : Nat),
      Emit.ok url' tt tot b ∈ (runInv u start es).2 → url' = stripRC u) ∧
    (∀ u : Url, cleanB u = true → stripRC u = u) ∧
    (∀ (so : Url → Int) (net : Url → List Ev) (fuel : Nat) (u : Url),
      countHops (runChain so net fuel u) = 0 →
      ∀ (url' : Url) (tt : Option Int) (tot : Int) (b : Nat),
        Emit.ok url' tt tot b ∈ runChain so net fuel u → url' = stripRC u) := by
  refine ⟨?_, cleanB_stripRC, ?_⟩
  · intro u start es url' tt tot b h
    exact proc_ok_url u (urlParse u) start es initSt url' tt tot b h
  · intro so net fuel u h0 url' tt tot b hm
    cases fuel with
    | zero => simp [runChain] at hm
    | succ f =>
      rw [runChain] at h0 hm
      obtain ⟨heq, _⟩ := expand_hops_zero (fun v => runChain so net f v)
        (runInv u (so u) (net u)).2 h0
      rw [heq] at hm
      exact proc_ok_url u (urlParse u) (so u) (net u) initSt url' tt tot b hm

/-- Counterexample for C3 as stated: a probe of `https://a.com/` that follows
one redirect to `https://b.com/p` reports `url = https://b.com/p` — the final
redirect target with the marker stripped — not the originally requested
`https://a.com/`. -/
theorem cex_C3 :
    runChain (fun _ => 0) netC3 2 ("https://a.com/".toList) =
      [Emit.reinvoke ("https://b.com/p?redirect_count=1".toList),
       Emit.ok ("https://b.com/p".toList) (some 40) 80 5] ∧
    ("https://b.com/p".toList : Url) ≠ ("https://a.com/".toList : Url) := by
  exact ⟨by decide, by decide⟩

/-- Witness for C3 (amended): the success emission of the final hop carries
the stripped final-hop URL, and a marker-free URL is left unchanged. -/
theorem wit_C3 :
    ("https://b.com/p".toList : Url)
      = stripRC ("https://b.com/p?redirect_count=1".toList) ∧
    stripRC ("https://e.com/".toList) = "https://e.com/".toList :=
  ⟨claim_C3.1 ("https://b.com/p?redirect_count=1".toList) 0
      [Ev.response 200 none, Ev.data 5 40, Ev.endE 80]
      ("https://b.com/p".toList) (some 40) 80 5 (by decide),
   claim_C3.2.1 ("https://e.com/".toList) (by decide)⟩

/-- Claim C4 (amended): when the marker in the current URL already reads 3, a
further redirect response yields exactly the `Too many redirects` error and
no re-invocation; and whenever no constructed redirect URL carries its own
`redirect_count=` text, a whole chain follows at most 3 hops.  (Without the
marker-free condition the bound fails — see the counterexample.) -/
theorem claim_C4 :
    (∀ (u : Url) (start : Int) (status : Nat) (loc : List Char) (es : List Ev),
      300 ≤ status → status < 400 → loc ≠ [] → 3 ≤ redirectCountOf u →
      (runInv u start (Ev.response status (some loc) :: es)).2
        = [Emit.err ("Too many redirects".toList)]) ∧
    (∀ (so : Url → Int) (net : Url → List Ev), CleanNet net →
      ∀ (fuel : Nat) (u : Url), countHops (runChain so net fuel u) ≤ 3) := by
  constructor
  · intro u start status loc es h3 h4 hl hk
    exact tooMany_run u start status loc es h3 h4 hl hk
  · intro so net hn fuel u
    have := chain_hops_bound so net hn fuel u
    omega

/-- Counterexample for C4 as stated: a server whose Location header embeds
its own `redirect_count=0` marker resets the parsed counter at every hop, so
the probe follows as many redirects as the model's fuel allows — here 5,
exceeding the claimed bound of 3. -/
theorem cex_C4 :
    countHops (runChain (fun _ => 0) netLoop 5 ("https://a.com/".toList)) = 5 ∧
    3 < countHops (runChain (fun _ => 0) netLoop 5 ("https://a.com/".toList)) := by
  exact ⟨by decide, by decide⟩

/-- Witness for C4 (amended): a URL already carrying `redirect_count=3`
answers a 301 with the too-many-redirects error, and a marker-clean network
keeps every chain within 3 hops. -/
theorem wit_C4 :
    (runInv ("https://a.com/?redirect_count=3".toList) 0
      [Ev.response 301 (some ("/y".toList)), Ev.endE 5]).2
      = [Emit.err ("Too many redirects".toList)] ∧
    countHops (runChain (fun _ => 0) (fun _ => []) 3 ("https://a.com/".toList)) ≤ 3 :=
  ⟨claim_C4.1 ("https://a.com/?redirect_count=3".toList) 0 301 ("/y".toList)
      [Ev.endE 5] (by decide) (by decide) (by decide) (by decide),
   claim_C4.2 (fun _ => 0) (fun _ => [])
      (by intro v status loc h; simp at h) 3 ("https://a.com/".toList)⟩

/-- Claim C10: the hop counter of an invocation is the value of the first
`redirect_count=` digit run found in the URL string (0 when absent); a URL
already carrying a marker of 3 or more answers its first redirect response
with the too-many-redirects error and follows nothing; and the marker
appended by the redirect logic is stripped from the url of a successful
result. -/
theorem claim_C10 :
    (∀ u : Url, findRC u = none → redirectCountOf u = 0) ∧
    (∀ (u : Url) (k : Nat), findRC u = some k → redirectCountOf u = k) ∧
    (∀ (u : Url) (start : Int) (status : Nat) (loc : List Char) (es : List Ev),
      300 ≤ status → status < 400 → loc ≠ [] → 3 ≤ redirectCountOf u →
      ∀ v, Emit.reinvoke v ∉ (runInv u start (Ev.response status (some loc) :: es)).2) ∧
    (∀ (base ds : List Char) (sc : Char), cleanB base = true → ds ≠ [] →
      (∀ c ∈ ds, c.isDigit = true) → (sc = '?' ∨ sc = '&') →
      stripRC (base ++ sc :: (rcPat ++ ds)) = base) := by
  refine ⟨?_, ?_, ?_, ?_⟩
  · intro u h; simp [redirectCountOf, h]
  · intro u k h; simp [redirectCountOf, h]
  · intro u start status loc es h3 h4 hl hk v
    rw [tooMany_run u start status loc es h3 h4 hl hk]
    simp
  · intro base ds sc h1 h2 h3 h4
    exact stripRC_append base h1 ds sc h2 h3 h4

/-- Witness for C10: no marker parses as 0; `redirect_count=7` parses as 7; a
URL carrying `redirect_count=3` follows no redirect; stripping removes an
appended marker. -/
theorem wit_C10 :
    redirectCountOf ("https://a.com/".toList) = 0 ∧
    redirectCountOf ("https://x.com/?redirect_count=7".toList) = 7 ∧
    Emit.reinvoke ("https://x.com/".toList)
      ∉ (runInv ("https://a.com/?redirect_count=3".toList) 0
          [Ev.response 302 (some ("/z".toList))]).2 ∧
    stripRC ("https://b.com/p".toList ++ '?' :: (rcPat ++ ['3']))
      = "https://b.com/p".toList :=
  ⟨claim_C10.1 ("https://a.com/".toList) (by decide),
   claim_C10.2.1 ("https://x.com/?redirect_count=7".toList) 7 (by decide),
   claim_C10.2.2.1 ("https://a.com/?redirect_count=3".toList) 0 302 ("/z".toList)
      [] (by decide) (by decide) (by decide) (by decide) ("https://x.com/".toList),
   claim_C10.2.2.2 ("https://b.com/p".toList) ['3'] '?' (by decide) (by decide)
      (by decide) (Or.inl rfl)⟩

end Probe
